import Mathlib

/-!
Verification of the core consensus components of a minimal proof-of-work
blockchain node: the Merkle commitment engine (`src/types/merkle.rs`), the
fork-choice store (`src/blockchain/mod.rs`), the miner control loop
(`src/miner/mod.rs`) and the network sync dispatch (`src/network/worker.rs`).

The digest type `H256` and the `Hashable` capability live in
`src/types/hash.rs`, which is not part of the sources; where a digest or its
big-endian numeric ordering is needed it is modelled from the spec, and the
hash functions themselves are abstract parameters.
-/

section Merkle

variable {H : Type}

/-- One pairing pass of the level loop in `MerkleTree::new`
(src/types/merkle.rs lines 96-107): nodes `(2k, 2k+1)` are combined with the
pair-hash `g` (in the source, `MerkleNode::new_from_children`, the SHA-256 of
the two 32-byte values concatenated); when a level has odd cardinality the
trailing node is paired with itself (`get(i + 1).unwrap_or(left)`). -/
def buildLevel (g : H → H → H) : List H → List H
  | [] => []
  | [a] => [g a a]
  | a :: b :: rest => g a b :: buildLevel g rest

/-- Size bookkeeping of the source: each pairing pass maps a level of size `n`
to a level of size `(n + 1) / 2` (`cur_level_size = (cur_level_size + 1) / 2`). -/
theorem buildLevel_length (g : H → H → H) :
    ∀ l : List H, (buildLevel g l).length = (l.length + 1) / 2
  | [] => by simp [buildLevel]
  | [_] => by simp [buildLevel]
  | _ :: _ :: rest => by
      simp only [buildLevel, List.length_cons, buildLevel_length g rest]
      omega

/-- The root value of `MerkleTree::new(data)` followed by `root()`
(src/types/merkle.rs lines 63-120): levels are rebuilt by `buildLevel` until a
single node remains; the empty input yields the default (all-zero) digest. -/
def merkleRoot (g : H → H → H) (dflt : H) : List H → H
  | [] => dflt
  | [a] => a
  | a :: b :: rest => merkleRoot g dflt (buildLevel g (a :: b :: rest))
termination_by l => l.length
decreasing_by
  rw [buildLevel_length]
  simp only [List.length_cons]
  omega

/-- `MerkleTree::proof(index)` (src/types/merkle.rs lines 123-144), expressed
over the leaf-hash level `l`: the loop over heights `0..height` visits exactly
the levels of size `> 1`; at each level, an odd index contributes its left
sibling, an even index that is not the last of the level contributes its right
sibling, and the trailing even index contributes nothing; the index then
halves.  An out-of-range sibling access (impossible for an in-range `index`)
is modelled as contributing nothing. -/
def merkleProof (g : H → H → H) (l : List H) (i : Nat) : List H :=
  if _h : l.length ≤ 1 then []
  else
    (if i % 2 = 1 then (l.get? (i - 1)).toList
     else if i ≠ l.length - 1 then (l.get? (i + 1)).toList
     else [])
    ++ merkleProof g (buildLevel g l) (i / 2)
termination_by l.length
decreasing_by
  rw [buildLevel_length]
  omega

/-- The reconstruction loop of `verify` (src/types/merkle.rs lines 157-174).
The source pops proof entries from the back of the reversed proof vector,
i.e. it consumes the proof slice front to back, modelled here by consuming the
head of `pf`.  Popping from an exhausted proof (`proof_vec.pop().unwrap()`)
panics in the source and is modelled as `none`. -/
def verifyLoop (g : H → H → H) (cur : H) (i size : Nat) (pf : List H) : Option H :=
  if size ≤ 1 then some cur
  else if i % 2 = 1 then
    match pf with
    | [] => none
    | e :: rest => verifyLoop g (g e cur) (i / 2) ((size + 1) / 2) rest
  else if i = size - 1 then
    verifyLoop g (g cur cur) (i / 2) ((size + 1) / 2) pf
  else
    match pf with
    | [] => none
    | e :: rest => verifyLoop g (g cur e) (i / 2) ((size + 1) / 2) rest
termination_by size
decreasing_by all_goals omega

/-- `verify(root, datum, proof, index, leaf_size)` (src/types/merkle.rs lines
149-177): reconstruct the root from the datum and the proof and compare with
the supplied root; `none` models the panic on an exhausted proof slice. -/
def verify [DecidableEq H] (g : H → H → H) (root datum : H) (pf : List H)
    (index leaf_size : Nat) : Option Bool :=
  (verifyLoop g datum index leaf_size pf).map (fun h => decide (h = root))

/-- The number of proof entries the reconstruction loop of `verify` consumes
for a given index and leaf count: one per level at which the node has a
sibling (odd index, or even index that is not the last of an odd-sized level). -/
def requiredProofLen (i size : Nat) : Nat :=
  if size ≤ 1 then 0
  else (if i % 2 = 1 then 1 else if i = size - 1 then 0 else 1)
    + requiredProofLen (i / 2) ((size + 1) / 2)
termination_by size
decreasing_by omega

end Merkle

section BlockModel

/-- `SignedTransaction` (src/types/transaction.rs): in the sources it is a
struct with no fields. -/
structure SignedTransaction : Type where
deriving DecidableEq

/-- `Header` (src/types/block.rs lines 13-20), generic over the digest type
`D` standing for `H256`: `nonce` is a `u32` and `timestamp` a `u128`
millisecond count, both modelled as `Nat`. -/
structure Header (D : Type) where
  parent : D
  nonce : Nat
  difficulty : D
  timestamp : Nat
  merkle_root : D
deriving DecidableEq

/-- `Content` (src/types/block.rs lines 29-32). -/
structure Content : Type where
  data : List SignedTransaction
deriving DecidableEq

/-- `Block` (src/types/block.rs lines 7-11); its identity is the hash of its
header alone (`impl Hashable for Block`). -/
structure Block (D : Type) where
  header : Header D
  content : Content
deriving DecidableEq

/-- `Block::get_parent` (src/types/block.rs lines 41-43). -/
def Block.get_parent {D : Type} (b : Block D) : D := b.header.parent

/-- `Block::get_difficulty` (src/types/block.rs lines 45-47). -/
def Block.get_difficulty {D : Type} (b : Block D) : D := b.header.difficulty

end BlockModel

section Fork

/-!
The fork-choice store (src/blockchain/mod.rs).  Digests are modelled as `Nat`
(the spec's H256 is a 32-byte value usable as a map key) and the block hash
`Block::hash()` — SHA-256 of the bincode-serialized header, from the absent
`src/types/hash.rs` — is an abstract parameter `hashB`.  The two `HashMap`s
are modelled as association lists whose lookup returns the most recently
inserted binding for a key, matching `HashMap::insert` overwrite semantics.
-/

/-- The state of `Blockchain` (src/blockchain/mod.rs lines 9-14). -/
structure Blockchain : Type where
  tip : Nat
  max_len : Nat
  hash_to_block : List (Nat × Block Nat)
  hash_to_len : List (Nat × Nat)
deriving DecidableEq

/-- The genesis block built by `Blockchain::new` (src/blockchain/mod.rs lines
18-34): parent and difficulty are the all-zero digest (modelled as `0`),
nonce `0`, the given construction-time timestamp, and the merkle root of an
empty transaction list, which is the default digest (`0`). -/
def genesisBlock (t : Nat) : Block Nat :=
  { header :=
      { parent := 0
        nonce := 0
        difficulty := 0
        timestamp := t
        -- `MerkleTree::new(&genesis_data).root()` with empty `genesis_data` is
        -- the default all-zero digest (`merkleRoot_nil` below).
        merkle_root := 0 }
    content := { data := [] } }

/-- `Blockchain::new` (src/blockchain/mod.rs lines 18-49): the store holds
exactly the genesis block, with recorded length `1`, as the tip. -/
def Blockchain.new (hashB : Block Nat → Nat) (t : Nat) : Blockchain :=
  let tip := hashB (genesisBlock t)
  { tip := tip
    max_len := 1
    hash_to_block := [(tip, genesisBlock t)]
    hash_to_len := [(tip, 1)] }

/-- The parent-length base computed at the top of `Blockchain::insert`
(src/blockchain/mod.rs lines 57-60): `lengths[parent]` if the parent block is
present, else `1`.  The source's `.unwrap()` on the length lookup is modelled
as `.getD 1`; the `none` case is unreachable because the two maps always have
the same keys. -/
def parentLenOf (hashB : Block Nat → Nat) (s : Blockchain) (b : Block Nat) : Nat :=
  if (s.hash_to_block.lookup b.get_parent).isSome then
    (s.hash_to_len.lookup b.get_parent).getD 1
  else 1

/-- `Blockchain::insert` (src/blockchain/mod.rs lines 53-68): store the block
and its length unconditionally, and move `tip`/`max_len` only when the new
length strictly exceeds `max_len`. -/
def Blockchain.insert (hashB : Block Nat → Nat) (s : Blockchain) (b : Block Nat) :
    Blockchain :=
  let block_hash := hashB b
  let parent_len := parentLenOf hashB s b
  let hash_to_block := (block_hash, b) :: s.hash_to_block
  let hash_to_len := (block_hash, parent_len + 1) :: s.hash_to_len
  if parent_len + 1 > s.max_len then
    { tip := block_hash
      max_len := parent_len + 1
      hash_to_block := hash_to_block
      hash_to_len := hash_to_len }
  else
    { s with hash_to_block := hash_to_block, hash_to_len := hash_to_len }

/-- The loop of `Blockchain::all_blocks_in_longest_chain`
(src/blockchain/mod.rs lines 76-87): walk parent links from `cur` until the
all-zero sentinel digest, pushing each visited hash.  The source's unguarded
`while` is modelled with explicit fuel (`none` when the fuel runs out before
the sentinel is reached) and the panicking map indexing `hash_to_block[&cur]`
on a missing key is modelled as `none`. -/
def allBlocksLoop (s : Blockchain) : Nat → Nat → List Nat → Option (List Nat)
  | 0, cur, res => if cur = 0 then some res else none
  | fuel + 1, cur, res =>
      if cur = 0 then some res
      else
        match s.hash_to_block.lookup cur with
        | none => none
        | some b => allBlocksLoop s fuel b.get_parent (res ++ [cur])

/-- `Blockchain::all_blocks_in_longest_chain` (src/blockchain/mod.rs lines
76-87): the pushed hashes, reversed into genesis-to-tip order. -/
def all_blocks_in_longest_chain (s : Blockchain) (fuel : Nat) : Option (List Nat) :=
  (allBlocksLoop s fuel s.tip []).map List.reverse

/-- Store states reachable from `Blockchain::new` by any sequence of
`insert` calls. -/
inductive Reachable (hashB : Block Nat → Nat) : Blockchain → Prop where
  | base (t : Nat) : Reachable hashB (Blockchain.new hashB t)
  | step {s : Blockchain} (b : Block Nat) :
      Reachable hashB s → Reachable hashB (s.insert hashB b)

/-- Store states reachable from `Blockchain::new hashB t` by `insert` calls
in which every inserted block's parent is already present in the store at
insertion time (no orphan insertions). -/
inductive ReachableNOFrom (hashB : Block Nat → Nat) (t : Nat) : Blockchain → Prop where
  | base : ReachableNOFrom hashB t (Blockchain.new hashB t)
  | step {s : Blockchain} (b : Block Nat) :
      ReachableNOFrom hashB t s →
      (s.hash_to_block.lookup b.get_parent).isSome →
      ReachableNOFrom hashB t (s.insert hashB b)

/-- Inductive invariant of the store under arbitrary `insert` sequences, for
an injective block hash: blocks are keyed by their own hash, the two maps have
the same keys, every recorded length is bounded by `max_len`, the tip is a
stored block whose recorded length is exactly `max_len`, and no recorded
length exceeds the length the current state would recompute for that block. -/
structure StoreInv (hashB : Block Nat → Nat) (s : Blockchain) : Prop where
  keyed : ∀ k b, s.hash_to_block.lookup k = some b → k = hashB b
  coupled : ∀ k, (s.hash_to_block.lookup k).isSome ↔ (s.hash_to_len.lookup k).isSome
  bounded : ∀ k L, s.hash_to_len.lookup k = some L → L ≤ s.max_len
  tip_len : s.hash_to_len.lookup s.tip = some s.max_len
  tip_stored : ∃ b, s.hash_to_block.lookup s.tip = some b
  len_le : ∀ b L, s.hash_to_block.lookup (hashB b) = some b →
    s.hash_to_len.lookup (hashB b) = some L → L ≤ parentLenOf hashB s b + 1

/-- Inductive invariant of the store under orphan-free `insert` sequences:
genesis is stored with length `1`, the zero sentinel is never a key, and every
stored non-genesis block's parent is stored with a length one below its own. -/
structure ChainInv (hashB : Block Nat → Nat) (t : Nat) (s : Blockchain) : Prop where
  gen_block : s.hash_to_block.lookup (hashB (genesisBlock t)) = some (genesisBlock t)
  gen_len : s.hash_to_len.lookup (hashB (genesisBlock t)) = some 1
  keyed : ∀ k b, s.hash_to_block.lookup k = some b → k = hashB b
  coupled : ∀ k, (s.hash_to_block.lookup k).isSome ↔ (s.hash_to_len.lookup k).isSome
  zero_absent : s.hash_to_block.lookup 0 = none
  linked : ∀ b, s.hash_to_block.lookup (hashB b) = some b →
    hashB b ≠ hashB (genesisBlock t) →
    ∃ p L, s.hash_to_block.lookup b.get_parent = some p ∧
      s.hash_to_len.lookup b.get_parent = some L ∧
      s.hash_to_len.lookup (hashB b) = some (L + 1)

end Fork

section MinerModel

/-!
The miner control loop (src/miner/mod.rs), generic over the digest type `D`.
-/

/-- `ControlSignal` (src/miner/mod.rs lines 21-25). -/
inductive ControlSignal : Type where
  | Start (i : Nat)
  | Update
  | Exit
deriving DecidableEq

/-- `OperatingState` (src/miner/mod.rs lines 27-31). -/
inductive OperatingState : Type where
  | Paused
  | Run (i : Nat)
  | ShutDown
deriving DecidableEq

/-- The mutable state of `miner_loop` (src/miner/mod.rs lines 101-110): the
operating state, the cached parent hash and the cached difficulty. -/
structure MinerState (D : Type) where
  operating_state : OperatingState
  parent_hash : D
  difficulty : D
deriving DecidableEq

/-- The signal handling of `miner_loop` (src/miner/mod.rs lines 115-155),
given the store's current tip `storeTip` (the value
`self.blockchain.lock().unwrap().tip()` the `Update` arm reads): in `Paused`,
`Exit`/`Start` change the operating state and `Update` does nothing; in
`Run`, `Exit`/`Start` change the operating state and `Update` re-reads the
tip into `parent_hash` — the cached `difficulty` is not touched. -/
def handleSignal {D : Type} (storeTip : D) (st : MinerState D) (sig : ControlSignal) :
    MinerState D :=
  match st.operating_state with
  | .Paused =>
      match sig with
      | .Exit => { st with operating_state := .ShutDown }
      | .Start i => { st with operating_state := .Run i }
      | .Update => st
  | .ShutDown => st
  | .Run _ =>
      match sig with
      | .Exit => { st with operating_state := .ShutDown }
      | .Start i => { st with operating_state := .Run i }
      | .Update => { st with parent_hash := storeTip }

/-- The candidate block built in the `Running` state (src/miner/mod.rs lines
160-175): parent and difficulty from the cached miner state, the given
wall-clock timestamp and random nonce, and the merkle root of the empty
transaction list (`_signed_txs = vec![]`), computed by the merkle engine with
pair-hash `g` and default digest `dflt`. -/
def mkCandidate {D : Type} (g : D → D → D) (dflt : D) (txHash : SignedTransaction → D)
    (st : MinerState D) (ts nonce : Nat) : Block D :=
  { header :=
      { parent := st.parent_hash
        difficulty := st.difficulty
        timestamp := ts
        nonce := nonce
        merkle_root := merkleRoot g dflt (([] : List SignedTransaction).map txHash) }
    content := { data := [] } }

/-- One mining attempt of the `Running` state (src/miner/mod.rs lines 160-184):
build a candidate, and iff `candidate.hash() <= difficulty` (the comparison
`le` on digests) emit it and advance the cached parent hash to the candidate's
own hash.  `hashH` is `Header::hash` from the absent `src/types/hash.rs`. -/
def miningStep {D : Type} (hashH : Header D → D) (le : D → D → Bool)
    (g : D → D → D) (dflt : D) (txHash : SignedTransaction → D)
    (st : MinerState D) (ts nonce : Nat) : Option (Block D) × MinerState D :=
  let cand := mkCandidate g dflt txHash st ts nonce
  if le (hashH cand.header) st.difficulty then
    (some cand, { st with parent_hash := hashH cand.header })
  else
    (none, st)

/-- Modelled from the spec (§4.1): the value of an H256 digest — a sequence
of bytes — read as an unsigned big-endian integer.  `src/types/hash.rs`,
which defines H256 and its ordering, is not among the sources. -/
def bytesToNat (bs : List Nat) : Nat := bs.foldl (fun acc b => acc * 256 + b) 0

/-- Modelled from the spec (§4.1): the `<=` comparison on H256 digests used
by the proof-of-work acceptance test, interpreting the 32 bytes as a
big-endian unsigned integer (`src/types/hash.rs` is not among the sources). -/
def h256Le (a b : List Nat) : Bool := decide (bytesToNat a ≤ bytesToNat b)

end MinerModel

section NetworkModel

/-- `Message` (src/network/message.rs), with digests as `Nat`. -/
inductive Message : Type where
  | Ping (s : String)
  | Pong (s : String)
  | NewBlockHashes (l : List Nat)
  | GetBlocks (l : List Nat)
  | Blocks (l : List (Block Nat))
  | NewTransactionHashes (l : List Nat)
  | GetTransactions (l : List Nat)
  | Transactions (l : List SignedTransaction)
deriving DecidableEq

/-- The `NewBlockHashes` arm of `worker_loop` (src/network/worker.rs lines
69-80): filter the announced hashes to those absent from the store
(`!hash_to_block.contains_key`), and reply `GetBlocks(missing)` to the
originating peer only when the filtered list is non-empty.  The handler only
reads the store, so it returns the store unchanged together with the replies
written to the peer. -/
def handleNewBlockHashes (s : Blockchain) (hash_vec : List Nat) :
    Blockchain × List Message :=
  let missed_hash_vec := hash_vec.filter (fun h => (s.hash_to_block.lookup h).isNone)
  (s, if ¬ missed_hash_vec.isEmpty then [Message.GetBlocks missed_hash_vec] else [])

end NetworkModel

section ConcreteInstances

/-- A concrete, injective block hash on `Nat` digests used to instantiate the
abstract `hashB`: an injective pairing of all header fields and the content
length (two `SignedTransaction` lists of equal length are equal, the struct
having no fields), shifted by one so that no block hashes to the zero
sentinel. -/
def hashEx (b : Block Nat) : Nat :=
  Nat.pair b.header.parent (Nat.pair b.header.nonce (Nat.pair b.header.difficulty
    (Nat.pair b.header.timestamp
      (Nat.pair b.header.merkle_root b.content.data.length)))) + 1

/-- A block extending genesis (parent `hashEx (genesisBlock 0) = 1`). -/
def bX : Block Nat :=
  { header :=
      { parent := hashEx (genesisBlock 0), nonce := 1, difficulty := 0,
        timestamp := 0, merkle_root := 0 }
    content := { data := [] } }

/-- A block whose parent is `bX`. -/
def bP : Block Nat :=
  { header :=
      { parent := hashEx bX, nonce := 2, difficulty := 0,
        timestamp := 0, merkle_root := 0 }
    content := { data := [] } }

/-- A block whose parent is `bP`. -/
def bC : Block Nat :=
  { header :=
      { parent := hashEx bP, nonce := 3, difficulty := 0,
        timestamp := 0, merkle_root := 0 }
    content := { data := [] } }

/-- A block extending genesis that records a nonzero difficulty. -/
def bD : Block Nat :=
  { header :=
      { parent := hashEx (genesisBlock 0), nonce := 1, difficulty := 7,
        timestamp := 0, merkle_root := 0 }
    content := { data := [] } }

/-- A concrete pair-hash on `Nat` digests used to instantiate the abstract
SHA-256 pair hash in witnesses. -/
def gEx : Nat → Nat → Nat := fun a b => 2 * a + 3 * b + 1

/-- A concrete leaf hash on `Nat` leaves used in witnesses. -/
def hashFEx : Nat → Nat := fun t => t + 10

/-- A store reached by one orphan-free insert: genesis plus `bX`. -/
def sW : Blockchain := (Blockchain.new hashEx 0).insert hashEx bX

/-- A store where `bP` was inserted as an orphan (its parent `bX` absent,
length recorded as `2`) and `bX` arrived afterwards (length `2`). -/
def sOrphan : Blockchain := ((Blockchain.new hashEx 0).insert hashEx bP).insert hashEx bX

/-- A store where `bP` was inserted as an orphan (length `2`), its child `bC`
then recorded length `3`, the missing parent `bX` arrived (length `2`), and
`bP` was re-inserted, recomputing its length as `3`. -/
def sStale : Blockchain :=
  ((((Blockchain.new hashEx 0).insert hashEx bP).insert hashEx bC).insert hashEx bX).insert
    hashEx bP

/-- A store whose tip block `bD` records difficulty `7`. -/
def sD : Blockchain := (Blockchain.new hashEx 0).insert hashEx bD

/-- A running miner state that cached the genesis tip and the genesis
difficulty `0` at start-up. -/
def minerStEx : MinerState Nat :=
  { operating_state := OperatingState.Run 0
    parent_hash := hashEx (genesisBlock 0)
    difficulty := 0 }

end ConcreteInstances

section MerkleProofs

variable {H : Type}

/-- The merkle root of no leaves is the default digest. -/
theorem merkleRoot_nil (g : H → H → H) (dflt : H) : merkleRoot g dflt [] = dflt := by
  rw [merkleRoot]

/-- The merkle root of a single leaf hash is that hash. -/
theorem merkleRoot_single (g : H → H → H) (dflt : H) (a : H) :
    merkleRoot g dflt [a] = a := by
  rw [merkleRoot]

/-- Unfolding `merkleRoot` across one level rebuild. -/
theorem merkleRoot_step (g : H → H → H) (dflt : H) (l : List H) (hl : 2 ≤ l.length) :
    merkleRoot g dflt l = merkleRoot g dflt (buildLevel g l) := by
  match l, hl with
  | a :: b :: rest, _ => rw [merkleRoot]

/-- Entry `j` of a built level: the pair-hash of entries `2j` and `2j + 1` of
the level below, with the trailing node self-paired. -/
theorem buildLevel_get? (g : H → H → H) :
    ∀ (l : List H) (j : Nat),
      (buildLevel g l).get? j =
        match l.get? (2 * j), l.get? (2 * j + 1) with
        | some a, some b => some (g a b)
        | some a, none => some (g a a)
        | none, _ => none
  | [], j => by simp [buildLevel]
  | [a], 0 => by simp [buildLevel]
  | [a], (j + 1) => by simp [buildLevel, Nat.mul_succ]
  | a :: b :: rest, 0 => by simp [buildLevel]
  | a :: b :: rest, (j + 1) => by
      have h1 : 2 * (j + 1) = 2 * j + 1 + 1 := by ring
      have h2 : 2 * (j + 1) + 1 = 2 * j + 1 + 1 + 1 := by ring
      simp only [buildLevel, List.get?_cons_succ, h1, h2]
      exact buildLevel_get? g rest j

/-- The reconstruction loop returns the accumulated digest once a single node
remains (`while cur_level_size > 1` exits). -/
theorem verifyLoop_base (g : H → H → H) (cur : H) (i size : Nat) (pf : List H)
    (h : size ≤ 1) : verifyLoop g cur i size pf = some cur := by
  rw [verifyLoop.eq_def]
  simp [h]

/-- One reconstruction step at an odd index: the left sibling is consumed. -/
theorem verifyLoop_odd (g : H → H → H) (cur : H) (i size : Nat) (e : H) (tl : List H)
    (h2 : ¬ size ≤ 1) (hodd : i % 2 = 1) :
    verifyLoop g cur i size (e :: tl) = verifyLoop g (g e cur) (i / 2) ((size + 1) / 2) tl := by
  rw [verifyLoop]
  simp [h2, hodd]

/-- One reconstruction step at the trailing even index: self-duplication, no
proof entry consumed. -/
theorem verifyLoop_evenlast (g : H → H → H) (cur : H) (i size : Nat) (pf : List H)
    (h2 : ¬ size ≤ 1) (he : ¬ i % 2 = 1) (hl : i = size - 1) :
    verifyLoop g cur i size pf = verifyLoop g (g cur cur) (i / 2) ((size + 1) / 2) pf := by
  rw [verifyLoop.eq_def]
  rw [if_neg h2, if_neg he, if_pos hl]

/-- One reconstruction step at an even index with a right sibling: the right
sibling is consumed. -/
theorem verifyLoop_evenmid (g : H → H → H) (cur : H) (i size : Nat) (e : H) (tl : List H)
    (h2 : ¬ size ≤ 1) (he : ¬ i % 2 = 1) (hl : ¬ i = size - 1) :
    verifyLoop g cur i size (e :: tl) = verifyLoop g (g cur e) (i / 2) ((size + 1) / 2) tl := by
  rw [verifyLoop]
  simp [h2, he, hl]

/-- The reconstruction loop of `verify`, fed the datum at a valid index and
the proof produced for that index (followed by any leftover entries),
recomputes exactly the tree's root. -/
theorem verifyLoop_merkleProof (g : H → H → H) (dflt : H) (l : List H) (i : Nat) (x : H)
    (hx : l.get? i = some x) (rest : List H) :
    verifyLoop g x i l.length (merkleProof g l i ++ rest) = some (merkleRoot g dflt l) := by
  obtain ⟨hi, -⟩ := List.get?_eq_some.mp hx
  by_cases hlen : l.length ≤ 1
  · have h1 : l.length = 1 := by omega
    obtain ⟨a, rfl⟩ : ∃ a, l = [a] := by
      match l, h1 with
      | [a], _ => exact ⟨a, rfl⟩
    have hi0 : i = 0 := by simp at hi; omega
    subst hi0
    simp only [List.get?_cons_zero, Option.some.injEq] at hx
    rw [merkleProof, dif_pos (by simp : ([a] : List H).length ≤ 1), List.nil_append,
      verifyLoop_base g x 0 ([a] : List H).length rest (by simp), merkleRoot_single, hx]
  · rw [merkleProof, dif_neg hlen]
    by_cases hodd : i % 2 = 1
    · -- odd index: consume the left sibling from the proof
      have him : i - 1 < l.length := by omega
      obtain ⟨y, hy⟩ : ∃ y, l.get? (i - 1) = some y :=
        ⟨l.get ⟨i - 1, him⟩, List.get?_eq_get him⟩
      have hparent : (buildLevel g l).get? (i / 2) = some (g y x) := by
        rw [buildLevel_get? g l (i / 2)]
        have e2 : 2 * (i / 2) + 1 = i := by omega
        rw [e2]
        have e1 : 2 * (i / 2) = i - 1 := by omega
        rw [e1, hy, hx]
      rw [if_pos hodd, hy]
      simp only [Option.toList_some, List.singleton_append, List.cons_append,
        List.nil_append]
      rw [verifyLoop_odd g x i l.length y _ hlen hodd, ← buildLevel_length g l,
        verifyLoop_merkleProof g dflt (buildLevel g l) (i / 2) (g y x) hparent rest,
        merkleRoot_step g dflt l (by omega)]
    · by_cases hlast : i = l.length - 1
      · -- trailing even index: no proof entry, self-duplicate
        have hparent : (buildLevel g l).get? (i / 2) = some (g x x) := by
          rw [buildLevel_get? g l (i / 2)]
          have e2 : l.get? (2 * (i / 2) + 1) = none := by
            rw [List.get?_eq_none]
            omega
          rw [e2]
          have e1 : 2 * (i / 2) = i := by omega
          rw [e1, hx]
        rw [if_neg hodd, if_neg (not_not_intro hlast), List.nil_append]
        rw [verifyLoop_evenlast g x i l.length _ hlen hodd hlast, ← buildLevel_length g l,
          verifyLoop_merkleProof g dflt (buildLevel g l) (i / 2) (g x x) hparent rest,
          merkleRoot_step g dflt l (by omega)]
      · -- even index with a right sibling: consume it from the proof
        have him : i + 1 < l.length := by omega
        obtain ⟨y, hy⟩ : ∃ y, l.get? (i + 1) = some y :=
          ⟨l.get ⟨i + 1, him⟩, List.get?_eq_get him⟩
        have hparent : (buildLevel g l).get? (i / 2) = some (g x y) := by
          rw [buildLevel_get? g l (i / 2)]
          have e1 : 2 * (i / 2) = i := by omega
          rw [e1, hy, hx]
        rw [if_neg hodd, if_pos hlast, hy]
        simp only [Option.toList_some, List.singleton_append, List.cons_append,
          List.nil_append]
        rw [verifyLoop_evenmid g x i l.length y _ hlen hodd hlast, ← buildLevel_length g l,
          verifyLoop_merkleProof g dflt (buildLevel g l) (i / 2) (g x y) hparent rest,
          merkleRoot_step g dflt l (by omega)]
termination_by l.length
decreasing_by all_goals (rw [buildLevel_length]; omega)

/-- C1.  Merkle round-trip: for every non-empty sequence of hashable leaves
(leaf hash `hashF`, pair hash `g`, default digest `dflt`) and every index
`i < length leaves`, verifying `hash(leaves[i])` with the proof generated for
index `i` against the root of the tree built from the leaves succeeds,
including for leaf sequences whose levels have odd cardinality (the trailing
node is self-duplicated in construction, omitted from the proof, and
self-duplicated again in reconstruction). -/
theorem merkle_round_trip {T : Type} [DecidableEq H] (g : H → H → H) (dflt : H)
    (hashF : T → H) (leaves : List T) (i : Nat) (hne : leaves ≠ []) (hi : i < leaves.length) :
    verify g (merkleRoot g dflt (leaves.map hashF)) (hashF (leaves.get ⟨i, hi⟩))
      (merkleProof g (leaves.map hashF) i) i leaves.length = some true := by
  have hx : (leaves.map hashF).get? i = some (hashF (leaves.get ⟨i, hi⟩)) := by
    rw [List.get?_map, List.get?_eq_get hi]
    rfl
  have hmain := verifyLoop_merkleProof g dflt (leaves.map hashF) i
    (hashF (leaves.get ⟨i, hi⟩)) hx []
  have hlen2 : (leaves.map hashF).length = leaves.length := by simp
  rw [List.append_nil, hlen2] at hmain
  unfold verify
  rw [hmain]
  simp

/-- Witness for C1 at a concrete input with an odd leaf count: index 2 of the
three leaves `[1, 2, 3]`. -/
theorem merkle_round_trip_witness :
    (([1, 2, 3] : List Nat) ≠ [] ∧ 2 < ([1, 2, 3] : List Nat).length) ∧
    verify gEx (merkleRoot gEx 0 (([1, 2, 3] : List Nat).map hashFEx))
      (hashFEx (([1, 2, 3] : List Nat).get ⟨2, by decide⟩))
      (merkleProof gEx (([1, 2, 3] : List Nat).map hashFEx) 2) 2
      ([1, 2, 3] : List Nat).length = some true :=
  ⟨⟨by decide, by decide⟩,
    merkle_round_trip gEx 0 hashFEx [1, 2, 3] 2 (by decide) (by decide)⟩

/-- A proof shorter than the number of levels at which a sibling is required
drives the reconstruction loop into popping an exhausted proof list. -/
theorem verifyLoop_short_none (g : H → H → H) (cur : H) (i size : Nat) (pf : List H)
    (hshort : pf.length < requiredProofLen i size) :
    verifyLoop g cur i size pf = none := by
  rw [requiredProofLen] at hshort
  by_cases hsz : size ≤ 1
  · rw [if_pos hsz] at hshort
    omega
  · rw [if_neg hsz] at hshort
    by_cases hodd : i % 2 = 1
    · rw [if_pos hodd] at hshort
      match pf, hshort with
      | [], _ =>
        rw [verifyLoop.eq_def, if_neg hsz, if_pos hodd]
      | e :: tl, hshort =>
        rw [verifyLoop_odd g cur i size e tl hsz hodd]
        exact verifyLoop_short_none g (g e cur) (i / 2) ((size + 1) / 2) tl
          (by simp only [List.length_cons] at hshort; omega)
    · by_cases hlast : i = size - 1
      · rw [if_neg hodd, if_pos hlast] at hshort
        rw [verifyLoop_evenlast g cur i size pf hsz hodd hlast]
        exact verifyLoop_short_none g (g cur cur) (i / 2) ((size + 1) / 2) pf (by omega)
      · rw [if_neg hodd, if_neg hlast] at hshort
        match pf, hshort with
        | [], _ =>
          rw [verifyLoop.eq_def, if_neg hsz, if_neg hodd, if_neg hlast]
        | e :: tl, hshort =>
          rw [verifyLoop_evenmid g cur i size e tl hsz hodd hlast]
          exact verifyLoop_short_none g (g cur e) (i / 2) ((size + 1) / 2) tl
            (by simp only [List.length_cons] at hshort; omega)
termination_by size
decreasing_by all_goals omega

/-- C10.  `verify` is partial on short proofs: whenever the proof slice
contains fewer digests than the number of tree levels at which the pair
`(index, leaf_size)` requires a sibling, `verify` does not return a boolean —
the source panics on `proof_vec.pop().unwrap()` — modelled here as `none`, so
a too-short proof is never reported as mere verification failure
(`some false`). -/
theorem verify_short_proof_none [DecidableEq H] (g : H → H → H) (root datum : H)
    (pf : List H) (index leaf_size : Nat)
    (hshort : pf.length < requiredProofLen index leaf_size) :
    verify g root datum pf index leaf_size = none := by
  unfold verify
  rw [verifyLoop_short_none g datum index leaf_size pf hshort]
  rfl

/-- Witness for C10 at the claim's example input: two leaves, index `0`,
empty proof. -/
theorem verify_short_proof_none_witness :
    ([] : List Nat).length < requiredProofLen 0 2 ∧
    verify gEx 5 7 [] 0 2 = none :=
  ⟨by simp [requiredProofLen],
    verify_short_proof_none gEx 5 7 [] 0 2 (by simp [requiredProofLen])⟩

end MerkleProofs

section ForkProofs

/-- Association-list lookup after prepending one binding: the new binding
shadows any older one, matching `HashMap::insert` overwrite semantics. -/
theorem lookup_cons {β : Type} (k a : Nat) (v : β) (t : List (Nat × β)) :
    List.lookup k ((a, v) :: t) = if k = a then some v else List.lookup k t := by
  rcases eq_or_ne k a with h | h
  · simp [List.lookup, h]
  · have hb : (k == a) = false := beq_false_of_ne h
    simp [List.lookup, hb, h]

/-- Block-map lookup after an insert. -/
theorem insert_lookup_block (hashB : Block Nat → Nat) (s : Blockchain) (b : Block Nat)
    (k : Nat) :
    (s.insert hashB b).hash_to_block.lookup k =
      if k = hashB b then some b else s.hash_to_block.lookup k := by
  unfold Blockchain.insert
  by_cases hgt : s.max_len < parentLenOf hashB s b + 1 <;> simp [hgt, lookup_cons]

/-- Length-map lookup after an insert. -/
theorem insert_lookup_len (hashB : Block Nat → Nat) (s : Blockchain) (b : Block Nat)
    (k : Nat) :
    (s.insert hashB b).hash_to_len.lookup k =
      if k = hashB b then some (parentLenOf hashB s b + 1) else s.hash_to_len.lookup k := by
  unfold Blockchain.insert
  by_cases hgt : s.max_len < parentLenOf hashB s b + 1 <;> simp [hgt, lookup_cons]

/-- The tip after an insert. -/
theorem insert_tip (hashB : Block Nat → Nat) (s : Blockchain) (b : Block Nat) :
    (s.insert hashB b).tip =
      if parentLenOf hashB s b + 1 > s.max_len then hashB b else s.tip := by
  unfold Blockchain.insert
  by_cases hgt : s.max_len < parentLenOf hashB s b + 1 <;> simp [hgt]

/-- The best length after an insert. -/
theorem insert_max (hashB : Block Nat → Nat) (s : Blockchain) (b : Block Nat) :
    (s.insert hashB b).max_len =
      if parentLenOf hashB s b + 1 > s.max_len then parentLenOf hashB s b + 1
      else s.max_len := by
  unfold Blockchain.insert
  by_cases hgt : s.max_len < parentLenOf hashB s b + 1 <;> simp [hgt]

/-- `max_len` never decreases across an insert. -/
theorem insert_max_mono (hashB : Block Nat → Nat) (s : Blockchain) (b : Block Nat) :
    s.max_len ≤ (s.insert hashB b).max_len := by
  rw [insert_max]
  split <;> omega

/-- C2.  Insert postcondition: `insert` stores the block under its hash,
records its length as the parent's recorded length plus one when the parent
is present (and as `2` when the parent is absent), and moves `tip` and
`max_len` to the new block exactly when the new length strictly exceeds the
current `max_len`, leaving both unchanged on a tie or smaller length. -/
theorem insert_postcondition (hashB : Block Nat → Nat) (s : Blockchain) (b : Block Nat) :
    ((s.insert hashB b).hash_to_block.lookup (hashB b) = some b) ∧
    ((s.insert hashB b).hash_to_len.lookup (hashB b) = some (parentLenOf hashB s b + 1)) ∧
    (∀ L, (s.hash_to_block.lookup b.get_parent).isSome →
      s.hash_to_len.lookup b.get_parent = some L →
      (s.insert hashB b).hash_to_len.lookup (hashB b) = some (L + 1)) ∧
    (s.hash_to_block.lookup b.get_parent = none →
      (s.insert hashB b).hash_to_len.lookup (hashB b) = some 2) ∧
    (parentLenOf hashB s b + 1 > s.max_len →
      (s.insert hashB b).tip = hashB b ∧
      (s.insert hashB b).max_len = parentLenOf hashB s b + 1) ∧
    (¬ parentLenOf hashB s b + 1 > s.max_len →
      (s.insert hashB b).tip = s.tip ∧ (s.insert hashB b).max_len = s.max_len) := by
  refine ⟨?_, ?_, ?_, ?_, ?_, ?_⟩
  · rw [insert_lookup_block, if_pos rfl]
  · rw [insert_lookup_len, if_pos rfl]
  · intro L hp hL
    rw [insert_lookup_len, if_pos rfl]
    unfold parentLenOf
    rw [if_pos hp, hL]
    rfl
  · intro hp
    rw [insert_lookup_len, if_pos rfl]
    unfold parentLenOf
    rw [if_neg (by rw [hp]; exact Bool.false_ne_true)]
  · intro hgt
    rw [insert_tip, insert_max, if_pos hgt, if_pos hgt]
    exact ⟨rfl, rfl⟩
  · intro hgt
    rw [insert_tip, insert_max, if_neg hgt, if_neg hgt]
    exact ⟨rfl, rfl⟩

/-- Witness for C2: inserting `bX` (child of genesis) into a fresh store
records length `2` and moves the tip. -/
theorem insert_postcondition_witness :
    sW.hash_to_block.lookup (hashEx bX) = some bX ∧
    sW.hash_to_len.lookup (hashEx bX) = some 2 ∧
    sW.tip = hashEx bX := by
  have h := insert_postcondition hashEx (Blockchain.new hashEx 0) bX
  refine ⟨h.1, ?_, ?_⟩
  · exact h.2.2.1 1 (by decide) (by decide)
  · exact (h.2.2.2.2.1 (by decide)).1

/-- Two transaction lists of equal length are equal: `SignedTransaction` has
no fields. -/
theorem stxList_eq_of_length :
    ∀ (l1 l2 : List SignedTransaction), l1.length = l2.length → l1 = l2
  | [], [], _ => rfl
  | [], _ :: _, h => by simp at h
  | _ :: _, [], h => by simp at h
  | a :: t1, b :: t2, h => by
      have ha : a = b := by cases a; cases b; rfl
      have ht := stxList_eq_of_length t1 t2 (by simpa using h)
      rw [ha, ht]

/-- `hashEx` is injective: it is an injective pairing of every datum of a
block. -/
theorem hashEx_injective : Function.Injective hashEx := by
  intro b1 b2 h
  obtain ⟨⟨p1, n1, d1, t1, m1⟩, ⟨c1⟩⟩ := b1
  obtain ⟨⟨p2, n2, d2, t2, m2⟩, ⟨c2⟩⟩ := b2
  simp only [hashEx] at h
  have h0 : Nat.pair p1 (Nat.pair n1 (Nat.pair d1 (Nat.pair t1 (Nat.pair m1 c1.length))))
      = Nat.pair p2 (Nat.pair n2 (Nat.pair d2 (Nat.pair t2 (Nat.pair m2 c2.length)))) := by
    omega
  obtain ⟨e1, h1⟩ := Nat.pair_eq_pair.mp h0
  obtain ⟨e2, h2⟩ := Nat.pair_eq_pair.mp h1
  obtain ⟨e3, h3⟩ := Nat.pair_eq_pair.mp h2
  obtain ⟨e4, h4⟩ := Nat.pair_eq_pair.mp h3
  obtain ⟨e5, e6⟩ := Nat.pair_eq_pair.mp h4
  have e7 := stxList_eq_of_length c1 c2 e6
  subst e1; subst e2; subst e3; subst e4; subst e5; subst e7
  rfl

/-- No block hashes to the all-zero sentinel under `hashEx`. -/
theorem hashEx_ne_zero : ∀ b : Block Nat, hashEx b ≠ 0 := by
  intro b
  simp [hashEx]

/-- The length an insert would recompute for any block never shrinks across
an insert (in an injective-hash store satisfying the invariant). -/
theorem parentLenOf_mono (hashB : Block Nat → Nat) (hinj : Function.Injective hashB)
    (s : Blockchain) (inv : StoreInv hashB s) (b c : Block Nat) :
    parentLenOf hashB s c ≤ parentLenOf hashB (s.insert hashB b) c := by
  set pl := parentLenOf hashB s b with hpl
  by_cases hpe : c.get_parent = hashB b
  · have h1 : (s.insert hashB b).hash_to_block.lookup c.get_parent = some b := by
      rw [insert_lookup_block, if_pos hpe]
    have h2 : (s.insert hashB b).hash_to_len.lookup c.get_parent = some (pl + 1) := by
      rw [insert_lookup_len, if_pos hpe, ← hpl]
    have hR : parentLenOf hashB (s.insert hashB b) c = pl + 1 := by
      unfold parentLenOf
      rw [h1, h2]
      rfl
    rw [hR]
    by_cases hb0 : (s.hash_to_block.lookup c.get_parent).isSome
    · obtain ⟨who, hwho⟩ := Option.isSome_iff_exists.mp hb0
      have hkey : c.get_parent = hashB who := inv.keyed _ _ hwho
      have hwb : who = b := hinj (by rw [← hkey, hpe])
      subst hwb
      obtain ⟨L, hL⟩ := Option.isSome_iff_exists.mp ((inv.coupled _).mp hb0)
      have hle : L ≤ pl + 1 := by
        refine inv.len_le who L ?_ ?_
        · rw [← hpe]; exact hwho
        · rw [← hpe]; exact hL
      have hLHS : parentLenOf hashB s c = L := by
        unfold parentLenOf
        rw [if_pos hb0, hL]
        rfl
      omega
    · have hLHS : parentLenOf hashB s c = 1 := by
        unfold parentLenOf
        rw [if_neg hb0]
      omega
  · have h1 : (s.insert hashB b).hash_to_block.lookup c.get_parent
        = s.hash_to_block.lookup c.get_parent := by
      rw [insert_lookup_block, if_neg hpe]
    have h2 : (s.insert hashB b).hash_to_len.lookup c.get_parent
        = s.hash_to_len.lookup c.get_parent := by
      rw [insert_lookup_len, if_neg hpe]
    unfold parentLenOf
    rw [h1, h2]

/-- A fresh store satisfies the store invariant. -/
theorem storeInv_new (hashB : Block Nat → Nat) (t : Nat) :
    StoreInv hashB (Blockchain.new hashB t) := by
  constructor
  · intro k b h
    simp only [Blockchain.new] at h
    rw [lookup_cons] at h
    split at h
    · next heq =>
      injection h with h1
      subst h1
      exact heq
    · simp at h
  · intro k
    simp only [Blockchain.new]
    rw [lookup_cons, lookup_cons]
    split <;> simp
  · intro k L h
    simp only [Blockchain.new] at h ⊢
    rw [lookup_cons] at h
    split at h
    · injection h with h1
      omega
    · simp at h
  · simp only [Blockchain.new]
    rw [lookup_cons, if_pos rfl]
  · exact ⟨genesisBlock t, by simp only [Blockchain.new]; rw [lookup_cons, if_pos rfl]⟩
  · intro b L hb hL
    simp only [Blockchain.new] at hL
    rw [lookup_cons] at hL
    split at hL
    · injection hL with h1
      omega
    · simp at hL

/-- `insert` preserves the store invariant. -/
theorem storeInv_insert (hashB : Block Nat → Nat) (hinj : Function.Injective hashB)
    (s : Blockchain) (inv : StoreInv hashB s) (b : Block Nat) :
    StoreInv hashB (s.insert hashB b) := by
  constructor
  · intro k c h
    rw [insert_lookup_block] at h
    split at h
    · next heq =>
      injection h with h1
      subst h1
      exact heq
    · exact inv.keyed k c h
  · intro k
    rw [insert_lookup_block, insert_lookup_len]
    split
    · simp
    · exact inv.coupled k
  · intro k L h
    rw [insert_lookup_len] at h
    rw [insert_max]
    split at h
    · injection h with h1
      split <;> omega
    · have := inv.bounded k L h
      split <;> omega
  · by_cases hgt : parentLenOf hashB s b + 1 > s.max_len
    · rw [insert_tip, insert_max, if_pos hgt, if_pos hgt, insert_lookup_len, if_pos rfl]
    · rw [insert_tip, insert_max, if_neg hgt, if_neg hgt, insert_lookup_len]
      by_cases htip : s.tip = hashB b
      · rw [if_pos htip]
        obtain ⟨c, hc⟩ := inv.tip_stored
        have hkey : s.tip = hashB c := inv.keyed _ _ hc
        have hcb : c = b := hinj (by rw [← hkey, htip])
        subst hcb
        rw [htip] at hc
        have hll : s.hash_to_len.lookup (hashB c) = some s.max_len := by
          rw [← htip]; exact inv.tip_len
        have hle := inv.len_le c s.max_len hc hll
        have heq : parentLenOf hashB s c + 1 = s.max_len := by omega
        rw [heq]
      · rw [if_neg htip]
        exact inv.tip_len
  · by_cases hgt : parentLenOf hashB s b + 1 > s.max_len
    · exact ⟨b, by rw [insert_tip, if_pos hgt, insert_lookup_block, if_pos rfl]⟩
    · rw [insert_tip, if_neg hgt]
      by_cases htip : s.tip = hashB b
      · exact ⟨b, by rw [insert_lookup_block, if_pos htip]⟩
      · obtain ⟨c, hc⟩ := inv.tip_stored
        exact ⟨c, by rw [insert_lookup_block, if_neg htip]; exact hc⟩
  · intro c L hc hL
    have hmono2 := parentLenOf_mono hashB hinj s inv b c
    rw [insert_lookup_block] at hc
    rw [insert_lookup_len] at hL
    split at hc
    · next heq =>
      injection hc with h1
      subst h1
      rw [if_pos heq] at hL
      injection hL with h2
      omega
    · next hne =>
      rw [if_neg hne] at hL
      have := inv.len_le c L hc hL
      omega

/-- Every reachable store (under an injective block hash) satisfies the store
invariant. -/
theorem storeInv_reachable (hashB : Block Nat → Nat) (hinj : Function.Injective hashB)
    (s : Blockchain) (h : Reachable hashB s) : StoreInv hashB s := by
  induction h with
  | base t => exact storeInv_new hashB t
  | step b hs ih => exact storeInv_insert hashB hinj _ ih b

/-- C4.  Tip/best-length invariant: in every reachable store state, `tip` is
the hash of a stored block whose recorded length equals `max_len`, every
recorded length is at most `max_len` (so `max_len` is the maximum length
observed so far, being itself recorded), and `max_len` never decreases across
a further insert. -/
theorem tip_best_length_invariant (hashB : Block Nat → Nat)
    (hinj : Function.Injective hashB) (s : Blockchain) (hs : Reachable hashB s) :
    (∃ b, s.hash_to_block.lookup s.tip = some b ∧ s.tip = hashB b ∧
      s.hash_to_len.lookup s.tip = some s.max_len) ∧
    (∀ k L, s.hash_to_len.lookup k = some L → L ≤ s.max_len) ∧
    (∀ b, s.max_len ≤ (s.insert hashB b).max_len) := by
  have inv := storeInv_reachable hashB hinj s hs
  obtain ⟨b, hb⟩ := inv.tip_stored
  exact ⟨⟨b, hb, inv.keyed _ _ hb, inv.tip_len⟩, inv.bounded,
    fun c => insert_max_mono hashB s c⟩

/-- Witness for C4 at the concrete reachable store `sW`. -/
theorem tip_best_length_invariant_witness :
    (∃ b, sW.hash_to_block.lookup sW.tip = some b ∧ sW.tip = hashEx b ∧
      sW.hash_to_len.lookup sW.tip = some sW.max_len) ∧
    sW.max_len ≤ (sW.insert hashEx bP).max_len := by
  have h := tip_best_length_invariant hashEx hashEx_injective sW
    (Reachable.step bX (Reachable.base 0))
  exact ⟨h.1, h.2.2 bP⟩

/-- Counterexample for C5: in the reachable store `sOrphan`, the block `bP`
is present with recorded length `2`, yet re-inserting it rewrites its length
entry to `3` and raises `max_len` from `2` to `3` — the store is not left
unchanged. -/
theorem insert_reinsert_changes_store :
    sOrphan.hash_to_block.lookup (hashEx bP) = some bP ∧
    sOrphan.hash_to_len.lookup (hashEx bP) = some 2 ∧
    (sOrphan.insert hashEx bP).hash_to_len.lookup (hashEx bP) = some 3 ∧
    sOrphan.max_len = 2 ∧
    (sOrphan.insert hashEx bP).max_len = 3 := by
  decide

/-- C5 amended: re-inserting a block already present in a reachable store
overwrites its block entry with identical data, and leaves the whole store
(blocks, lengths, tip, max_len) unchanged provided the length the current
state recomputes for it (parent length plus one) equals its recorded length —
which can fail only when the block's parent was absent or its parent's
recorded length has changed since the original insertion. -/
theorem insert_idempotent_when_len_stable (hashB : Block Nat → Nat)
    (hinj : Function.Injective hashB) (s : Blockchain) (hs : Reachable hashB s)
    (b : Block Nat) (hb : s.hash_to_block.lookup (hashB b) = some b)
    (hl : s.hash_to_len.lookup (hashB b) = some (parentLenOf hashB s b + 1)) :
    (s.insert hashB b).tip = s.tip ∧
    (s.insert hashB b).max_len = s.max_len ∧
    (∀ k, (s.insert hashB b).hash_to_block.lookup k = s.hash_to_block.lookup k) ∧
    (∀ k, (s.insert hashB b).hash_to_len.lookup k = s.hash_to_len.lookup k) := by
  have inv := storeInv_reachable hashB hinj s hs
  have hbd := inv.bounded _ _ hl
  have hgt : ¬ parentLenOf hashB s b + 1 > s.max_len := by omega
  refine ⟨?_, ?_, ?_, ?_⟩
  · rw [insert_tip, if_neg hgt]
  · rw [insert_max, if_neg hgt]
  · intro k
    rw [insert_lookup_block]
    split
    · next heq => rw [heq, hb]
    · rfl
  · intro k
    rw [insert_lookup_len]
    split
    · next heq => rw [heq, hl]
    · rfl

/-- Witness for C5 (amended) at the concrete reachable store `sW` and its
stored block `bX`, whose recorded length is stable. -/
theorem insert_idempotent_witness :
    (sW.insert hashEx bX).tip = sW.tip ∧
    (sW.insert hashEx bX).max_len = sW.max_len ∧
    (sW.insert hashEx bX).hash_to_block.lookup (hashEx bX)
      = sW.hash_to_block.lookup (hashEx bX) := by
  have h := insert_idempotent_when_len_stable hashEx hashEx_injective sW
    (Reachable.step bX (Reachable.base 0)) bX (by decide) (by decide)
  exact ⟨h.1, h.2.1, h.2.2.1 (hashEx bX)⟩

/-- Counterexample for C3: in the reachable store `sStale` (built by the
insert sequence `bP` as an orphan, then its child `bC`, then `bP`'s parent
`bX`, then `bP` again), the stored non-genesis block `bC` has its parent `bP`
present in the block map, yet `lengths[hash bC] = 3` while
`lengths[hash bP] + 1 = 4`. -/
theorem per_block_length_cx :
    sStale.hash_to_block.lookup (hashEx bC) = some bC ∧
    hashEx bC ≠ hashEx (genesisBlock 0) ∧
    sStale.hash_to_block.lookup bC.get_parent = some bP ∧
    sStale.hash_to_len.lookup bC.get_parent = some 3 ∧
    sStale.hash_to_len.lookup (hashEx bC) = some 3 ∧
    (3 : Nat) ≠ 3 + 1 := by
  decide

/-- A fresh store satisfies the orphan-free chain invariant. -/
theorem chainInv_new (hashB : Block Nat → Nat) (hzero : ∀ c : Block Nat, hashB c ≠ 0)
    (t : Nat) : ChainInv hashB t (Blockchain.new hashB t) := by
  constructor
  · simp only [Blockchain.new]
    rw [lookup_cons, if_pos rfl]
  · simp only [Blockchain.new]
    rw [lookup_cons, if_pos rfl]
  · intro k b h
    simp only [Blockchain.new] at h
    rw [lookup_cons] at h
    split at h
    · next heq =>
      injection h with h1
      subst h1
      exact heq
    · simp at h
  · intro k
    simp only [Blockchain.new]
    rw [lookup_cons, lookup_cons]
    split <;> simp
  · simp only [Blockchain.new]
    rw [lookup_cons, if_neg (fun he => hzero (genesisBlock t) he.symm)]
    rfl
  · intro b hb hne
    simp only [Blockchain.new] at hb
    rw [lookup_cons] at hb
    split at hb
    · next heq => exact absurd heq hne
    · simp at hb

/-- An orphan-free `insert` preserves the chain invariant. -/
theorem chainInv_insert (hashB : Block Nat → Nat) (hinj : Function.Injective hashB)
    (hzero : ∀ c : Block Nat, hashB c ≠ 0) (t : Nat) (s : Blockchain)
    (inv : ChainInv hashB t s) (b : Block Nat)
    (hp : (s.hash_to_block.lookup b.get_parent).isSome) :
    ChainInv hashB t (s.insert hashB b) := by
  have hbne : hashB b ≠ hashB (genesisBlock t) := by
    intro he
    have hbg : b = genesisBlock t := hinj he
    rw [hbg] at hp
    have hz : (genesisBlock t).get_parent = 0 := rfl
    rw [hz, inv.zero_absent] at hp
    simp at hp
  obtain ⟨p0, hp0⟩ := Option.isSome_iff_exists.mp hp
  obtain ⟨L0, hL0⟩ := Option.isSome_iff_exists.mp ((inv.coupled _).mp hp)
  have hplval : parentLenOf hashB s b = L0 := by
    unfold parentLenOf
    rw [if_pos hp, hL0]
    rfl
  have hpar_ne : b.get_parent ≠ hashB b := by
    intro he
    have hkey : b.get_parent = hashB p0 := inv.keyed _ _ hp0
    have hpb : p0 = b := hinj (by rw [← hkey, he])
    subst hpb
    rw [he] at hp0
    obtain ⟨p, L, h1, h2, h3⟩ := inv.linked p0 hp0 hbne
    rw [he] at h2
    rw [h2] at h3
    injection h3 with h4
    omega
  constructor
  · rw [insert_lookup_block, if_neg (fun he => hbne he.symm)]
    exact inv.gen_block
  · rw [insert_lookup_len, if_neg (fun he => hbne he.symm)]
    exact inv.gen_len
  · intro k c h
    rw [insert_lookup_block] at h
    split at h
    · next heq =>
      injection h with h1
      subst h1
      exact heq
    · exact inv.keyed k c h
  · intro k
    rw [insert_lookup_block, insert_lookup_len]
    split
    · simp
    · exact inv.coupled k
  · rw [insert_lookup_block, if_neg (fun he => hzero b he.symm)]
    exact inv.zero_absent
  · intro c hc hcne
    rw [insert_lookup_block] at hc
    split at hc
    · next heq =>
      injection hc with h1
      subst h1
      refine ⟨p0, L0, ?_, ?_, ?_⟩
      · rw [insert_lookup_block, if_neg hpar_ne]
        exact hp0
      · rw [insert_lookup_len, if_neg hpar_ne]
        exact hL0
      · rw [insert_lookup_len, if_pos rfl, hplval]
    · next hne =>
      obtain ⟨p, L, h1, h2, h3⟩ := inv.linked c hc hcne
      by_cases hpe : c.get_parent = hashB b
      · have hkey : c.get_parent = hashB p := inv.keyed _ _ h1
        have hpb : p = b := hinj (by rw [← hkey, hpe])
        subst hpb
        have hbst : s.hash_to_block.lookup (hashB p) = some p := by
          rw [← hpe]
          exact h1
        obtain ⟨pb, Lb, hb1, hb2, hb3⟩ := inv.linked p hbst hbne
        have hL_eq : L = Lb + 1 := by
          rw [hpe] at h2
          rw [h2] at hb3
          injection hb3 with h5
        have hLb : Lb = L0 := by
          rw [hb2] at hL0
          simpa using hL0
        refine ⟨p, L, ?_, ?_, ?_⟩
        · rw [insert_lookup_block, if_pos hpe]
        · rw [insert_lookup_len, if_pos hpe, hplval, hL_eq, hLb]
        · rw [insert_lookup_len, if_neg hne]
          exact h3
      · refine ⟨p, L, ?_, ?_, ?_⟩
        · rw [insert_lookup_block, if_neg hpe]
          exact h1
        · rw [insert_lookup_len, if_neg hpe]
          exact h2
        · rw [insert_lookup_len, if_neg hne]
          exact h3

/-- An orphan-free reachable store is reachable. -/
theorem reachableNO_reachable (hashB : Block Nat → Nat) (t : Nat) (s : Blockchain)
    (h : ReachableNOFrom hashB t s) : Reachable hashB s := by
  induction h with
  | base => exact Reachable.base t
  | step b hs hp ih => exact Reachable.step b ih

/-- Every orphan-free reachable store satisfies the chain invariant. -/
theorem chainInv_reachableNO (hashB : Block Nat → Nat) (hinj : Function.Injective hashB)
    (hzero : ∀ c : Block Nat, hashB c ≠ 0) (t : Nat) (s : Blockchain)
    (h : ReachableNOFrom hashB t s) : ChainInv hashB t s := by
  induction h with
  | base => exact chainInv_new hashB hzero t
  | step b hs hp ih => exact chainInv_insert hashB hinj hzero t _ ih b hp

/-- C3 amended: in every store state reachable from `new()` by insert calls
in which each inserted block's parent is present at insertion time (no
orphans), for an injective block hash that avoids the zero sentinel, every
stored block other than genesis has its parent present and
`lengths[hash b] = lengths[hash b.parent] + 1`.  (The unamended claim fails
for orphan insertions: see the counterexample.) -/
theorem per_block_length_invariant_no_orphans (hashB : Block Nat → Nat)
    (hinj : Function.Injective hashB) (hzero : ∀ c : Block Nat, hashB c ≠ 0)
    (t : Nat) (s : Blockchain) (hs : ReachableNOFrom hashB t s) (b : Block Nat)
    (hb : s.hash_to_block.lookup (hashB b) = some b)
    (hgen : hashB b ≠ hashB (genesisBlock t)) :
    ∃ p L, s.hash_to_block.lookup b.get_parent = some p ∧
      s.hash_to_len.lookup b.get_parent = some L ∧
      s.hash_to_len.lookup (hashB b) = some (L + 1) :=
  (chainInv_reachableNO hashB hinj hzero t s hs).linked b hb hgen

/-- Witness for C3 (amended) at the concrete orphan-free store `sW` and its
stored non-genesis block `bX`. -/
theorem per_block_length_invariant_witness :
    ∃ p L, sW.hash_to_block.lookup bX.get_parent = some p ∧
      sW.hash_to_len.lookup bX.get_parent = some L ∧
      sW.hash_to_len.lookup (hashEx bX) = some (L + 1) :=
  per_block_length_invariant_no_orphans hashEx hashEx_injective hashEx_ne_zero 0 sW
    (ReachableNOFrom.step bX ReachableNOFrom.base (by decide)) bX (by decide) (by decide)

/-- Walking from the zero sentinel terminates at once, with the accumulator
unchanged. -/
theorem allBlocksLoop_zero (s : Blockchain) (fuel : Nat) (acc : List Nat) :
    allBlocksLoop s fuel 0 acc = some acc := by
  cases fuel <;> simp [allBlocksLoop]

/-- In a store satisfying the chain invariant, the walk from any stored hash
with recorded length `L` succeeds given fuel at least `L`, pushing exactly the
`L` hashes from the start down to genesis, each parent-linked to the next. -/
theorem allBlocksLoop_chain (hashB : Block Nat → Nat) (t : Nat) (s : Blockchain)
    (inv : ChainInv hashB t s) (hzero : ∀ c : Block Nat, hashB c ≠ 0) :
    ∀ L k b, s.hash_to_block.lookup k = some b → s.hash_to_len.lookup k = some L →
      ∀ fuel, L ≤ fuel → ∀ acc,
      ∃ tr, allBlocksLoop s fuel k acc = some (acc ++ tr) ∧ tr.length = L ∧
        tr.head? = some k ∧ tr.getLast? = some (hashB (genesisBlock t)) ∧
        List.Chain' (fun x y => ∃ c, s.hash_to_block.lookup x = some c ∧ c.get_parent = y)
          tr := by
  intro L
  induction L using Nat.strong_induction_on with
  | _ L ih =>
    intro k b hk hL fuel hf acc
    have hkb : k = hashB b := inv.keyed _ _ hk
    by_cases hgen : k = hashB (genesisBlock t)
    · have hbg : b = genesisBlock t := by
        rw [hgen, inv.gen_block] at hk
        injection hk with h1
        exact h1.symm
      have hL1 : L = 1 := by
        rw [hgen, inv.gen_len] at hL
        injection hL with h1
        omega
      subst hL1
      cases fuel with
      | zero => omega
      | succ f =>
        refine ⟨[k], ?_, rfl, rfl, by simp [hgen], List.chain'_singleton k⟩
        rw [allBlocksLoop]
        rw [if_neg (show ¬ k = 0 by rw [hkb]; exact hzero b)]
        rw [hk]
        show allBlocksLoop s f b.get_parent (acc ++ [k]) = some (acc ++ [k])
        rw [hbg]
        exact allBlocksLoop_zero s f (acc ++ [k])
    · have hbb : s.hash_to_block.lookup (hashB b) = some b := by
        rw [← hkb]
        exact hk
      have hbne : hashB b ≠ hashB (genesisBlock t) := by
        rw [← hkb]
        exact hgen
      obtain ⟨p, Lp, h1, h2, h3⟩ := inv.linked b hbb hbne
      have hLL : L = Lp + 1 := by
        rw [hkb, h3] at hL
        injection hL with h4
        exact h4.symm
      cases fuel with
      | zero => omega
      | succ f =>
        have hfp : Lp ≤ f := by omega
        obtain ⟨tr', heq, hlen, hhead, hlast, hchain⟩ :=
          ih Lp (by omega) b.get_parent p h1 h2 f hfp (acc ++ [k])
        obtain ⟨k2, tr'', rfl⟩ : ∃ k2 tr'', tr' = k2 :: tr'' := by
          match tr', hhead with
          | k2 :: tr'', _ => exact ⟨k2, tr'', rfl⟩
        have hk2 : k2 = b.get_parent := by
          simp only [List.head?_cons, Option.some.injEq] at hhead
          exact hhead
        refine ⟨k :: k2 :: tr'', ?_, ?_, rfl, ?_, ?_⟩
        · rw [allBlocksLoop]
          rw [if_neg (show ¬ k = 0 by rw [hkb]; exact hzero b)]
          rw [hk]
          show allBlocksLoop s f b.get_parent (acc ++ [k]) = some (acc ++ k :: k2 :: tr'')
          rw [heq, List.append_assoc]
          rfl
        · simp only [List.length_cons] at hlen ⊢
          omega
        · rw [List.getLast?_cons_cons]
          exact hlast
        · rw [List.chain'_cons]
          exact ⟨⟨b, hk, hk2.symm⟩, hchain⟩

/-- C6 amended: in every store state reachable from `new()` by orphan-free
insert calls (each inserted block's parent present at insertion time, which
guarantees every ancestor on the path from tip to the zero sentinel is
present), `all_blocks_in_longest_chain` — run with fuel `max_len`, enough for
its walk to finish — returns a sequence from genesis to `tip()` whose length
equals the tip's recorded length, whose first element is the genesis hash,
whose last element is the tip, and in which each subsequent element's block
has the previous element as its parent.  (The unamended claim fails for
backfilled orphans: see the counterexample.) -/
theorem chain_listing_no_orphans (hashB : Block Nat → Nat)
    (hinj : Function.Injective hashB) (hzero : ∀ c : Block Nat, hashB c ≠ 0)
    (t : Nat) (s : Blockchain) (hs : ReachableNOFrom hashB t s) :
    ∃ res, all_blocks_in_longest_chain s s.max_len = some res ∧
      s.hash_to_len.lookup s.tip = some s.max_len ∧
      res.length = s.max_len ∧
      res.head? = some (hashB (genesisBlock t)) ∧
      res.getLast? = some s.tip ∧
      List.Chain' (fun x y => ∃ c, s.hash_to_block.lookup y = some c ∧ c.get_parent = x)
        res := by
  have sinv := storeInv_reachable hashB hinj s (reachableNO_reachable hashB t s hs)
  have cinv := chainInv_reachableNO hashB hinj hzero t s hs
  obtain ⟨b, hb⟩ := sinv.tip_stored
  obtain ⟨tr, heq, hlen, hhead, hlast, hchain⟩ :=
    allBlocksLoop_chain hashB t s cinv hzero s.max_len s.tip b hb sinv.tip_len s.max_len
      le_rfl []
  refine ⟨tr.reverse, ?_, sinv.tip_len, ?_, ?_, ?_, ?_⟩
  · unfold all_blocks_in_longest_chain
    rw [heq]
    simp
  · simp [hlen]
  · rw [List.head?_reverse]
    exact hlast
  · rw [List.getLast?_reverse]
    exact hhead
  · rw [List.chain'_reverse]
    exact hchain

/-- Witness for C6 (amended) at the concrete orphan-free store `sW`. -/
theorem chain_listing_witness :
    ∃ res, all_blocks_in_longest_chain sW sW.max_len = some res ∧
      sW.hash_to_len.lookup sW.tip = some sW.max_len ∧
      res.length = sW.max_len ∧
      res.head? = some (hashEx (genesisBlock 0)) ∧
      res.getLast? = some sW.tip ∧
      List.Chain' (fun x y => ∃ c, sW.hash_to_block.lookup y = some c ∧ c.get_parent = x)
        res :=
  chain_listing_no_orphans hashEx hashEx_injective hashEx_ne_zero 0 sW
    (ReachableNOFrom.step bX ReachableNOFrom.base (by decide))

/-- Counterexample for C6: in the reachable store `sOrphan` (orphan `bP`
backfilled by `bX`), every ancestor on the path from the tip `bP` back to the
zero sentinel is present, the walk terminates and returns the three hashes
genesis, `bX`, `bP` — but the tip's recorded length is `2`, not `3`. -/
theorem chain_listing_cx :
    sOrphan.hash_to_block.lookup sOrphan.tip = some bP ∧
    sOrphan.hash_to_block.lookup bP.get_parent = some bX ∧
    sOrphan.hash_to_block.lookup bX.get_parent = some (genesisBlock 0) ∧
    (genesisBlock 0).get_parent = 0 ∧
    sOrphan.hash_to_len.lookup sOrphan.tip = some 2 ∧
    all_blocks_in_longest_chain sOrphan 5 =
      some [hashEx (genesisBlock 0), hashEx bX, hashEx bP] ∧
    ([hashEx (genesisBlock 0), hashEx bX, hashEx bP] : List Nat).length = 3 ∧
    (3 : Nat) ≠ 2 := by
  decide

end ForkProofs

section MinerProofs

/-- C7.  Proof-of-work acceptance boundary: one mining attempt in the Running
state emits the candidate block on the outbound channel if and only if the
candidate header's digest, read as an unsigned big-endian integer, is
numerically at most the difficulty digest read the same way; an exactly equal
digest is accepted, and a digest greater by one is rejected. -/
theorem pow_acceptance_boundary (hashH : Header (List Nat) → List Nat)
    (g : List Nat → List Nat → List Nat) (dflt : List Nat)
    (txHash : SignedTransaction → List Nat) (st : MinerState (List Nat))
    (ts nonce : Nat) :
    ((miningStep hashH h256Le g dflt txHash st ts nonce).1 =
        some (mkCandidate g dflt txHash st ts nonce) ↔
      bytesToNat (hashH (mkCandidate g dflt txHash st ts nonce).header) ≤
        bytesToNat st.difficulty) ∧
    (bytesToNat (hashH (mkCandidate g dflt txHash st ts nonce).header) =
        bytesToNat st.difficulty →
      (miningStep hashH h256Le g dflt txHash st ts nonce).1 =
        some (mkCandidate g dflt txHash st ts nonce)) ∧
    (bytesToNat (hashH (mkCandidate g dflt txHash st ts nonce).header) =
        bytesToNat st.difficulty + 1 →
      (miningStep hashH h256Le g dflt txHash st ts nonce).1 = none) := by
  by_cases hle : bytesToNat (hashH (mkCandidate g dflt txHash st ts nonce).header) ≤
      bytesToNat st.difficulty
  · refine ⟨?_, ?_, ?_⟩
    · simp [miningStep, h256Le, hle]
    · intro _
      simp [miningStep, h256Le, hle]
    · intro heq
      exfalso
      omega
  · refine ⟨?_, ?_, ?_⟩
    · simp [miningStep, h256Le, hle]
    · intro heq
      exfalso
      omega
    · intro _
      simp [miningStep, h256Le, hle]

/-- Witness for C7: with difficulty bytes `[1, 0]` (value 256), a candidate
hashing to `[1, 0]` (equal) is emitted and a candidate hashing to `[1, 1]`
(greater by one) is not. -/
theorem pow_acceptance_boundary_witness :
    (miningStep (fun _ => [1, 0]) h256Le (fun a _ => a) [] (fun _ => [])
        { operating_state := OperatingState.Run 0, parent_hash := [9],
          difficulty := [1, 0] } 0 0).1 =
      some (mkCandidate (fun a _ => a) [] (fun _ => [])
        { operating_state := OperatingState.Run 0, parent_hash := [9],
          difficulty := [1, 0] } 0 0) ∧
    (miningStep (fun _ => [1, 1]) h256Le (fun a _ => a) [] (fun _ => [])
        { operating_state := OperatingState.Run 0, parent_hash := [9],
          difficulty := [1, 0] } 0 0).1 = none := by
  refine ⟨?_, ?_⟩
  · exact (pow_acceptance_boundary (fun _ => [1, 0]) (fun a _ => a) [] (fun _ => [])
      { operating_state := OperatingState.Run 0, parent_hash := [9],
        difficulty := [1, 0] } 0 0).2.1 (by decide)
  · exact (pow_acceptance_boundary (fun _ => [1, 1]) (fun a _ => a) [] (fun _ => [])
      { operating_state := OperatingState.Run 0, parent_hash := [9],
        difficulty := [1, 0] } 0 0).2.2 (by decide)

/-- Counterexample for C8: the miner `minerStEx` is Running with cached
difficulty `0`; the store `sD`'s tip block records difficulty `7`.  After an
`Update` signal the miner's parent hash is the freshly read tip, but its
cached difficulty is still `0`, not the tip's recorded difficulty `7` — the
`Update` arm of `miner_loop` re-reads only the tip. -/
theorem miner_update_stale_difficulty_cx :
    (handleSignal sD.tip minerStEx ControlSignal.Update).parent_hash = sD.tip ∧
    (handleSignal sD.tip minerStEx ControlSignal.Update).difficulty = 0 ∧
    ((sD.hash_to_block.lookup sD.tip).map Block.get_difficulty) = some 7 ∧
    (0 : Nat) ≠ 7 := by
  decide

/-- C8 amended: whenever the miner receives an `Update` signal in the Running
state, it re-reads the current tip from the shared store into its cached
parent hash, with no state transition; the cached difficulty is NOT re-read —
it keeps the value read when mining started — so every subsequent candidate
block is built with the freshly read parent hash and the previously cached
difficulty. -/
theorem miner_update_rereads_tip {D : Type} (storeTip : D) (st : MinerState D) (i : Nat)
    (hrun : st.operating_state = OperatingState.Run i)
    (g : D → D → D) (dflt : D) (txHash : SignedTransaction → D) (ts nonce : Nat) :
    handleSignal storeTip st ControlSignal.Update = { st with parent_hash := storeTip } ∧
    (handleSignal storeTip st ControlSignal.Update).operating_state = st.operating_state ∧
    (handleSignal storeTip st ControlSignal.Update).difficulty = st.difficulty ∧
    (mkCandidate g dflt txHash (handleSignal storeTip st ControlSignal.Update)
      ts nonce).header.parent = storeTip ∧
    (mkCandidate g dflt txHash (handleSignal storeTip st ControlSignal.Update)
      ts nonce).header.difficulty = st.difficulty := by
  have h : handleSignal storeTip st ControlSignal.Update
      = { st with parent_hash := storeTip } := by
    unfold handleSignal
    rw [hrun]
  rw [h]
  exact ⟨rfl, rfl, rfl, rfl, rfl⟩

/-- Witness for C8 (amended) at the concrete Running miner state `minerStEx`
and store tip `42`. -/
theorem miner_update_rereads_tip_witness :
    handleSignal (42 : Nat) minerStEx ControlSignal.Update
      = { minerStEx with parent_hash := 42 } ∧
    (handleSignal (42 : Nat) minerStEx ControlSignal.Update).difficulty
      = minerStEx.difficulty := by
  have h := miner_update_rereads_tip (42 : Nat) minerStEx 0 rfl
    (fun a _ => a) 0 (fun _ => 0) 0 0
  exact ⟨h.1, h.2.2.1⟩

end MinerProofs

section NetworkProofs

/-- C9.  `NewBlockHashes` handling: the worker's reply is `GetBlocks(missing)`
where `missing` is exactly the in-order subsequence of the announced hashes
absent from the store, no reply at all is sent when every announced hash is
present (in particular on a repeated announcement of a known hash), and the
store is not modified. -/
theorem new_block_hashes_reply (s : Blockchain) (l : List Nat) :
    ((handleNewBlockHashes s l).1 = s) ∧
    ((handleNewBlockHashes s l).2 =
      if (l.filter (fun h => (s.hash_to_block.lookup h).isNone)).isEmpty then []
      else [Message.GetBlocks (l.filter (fun h => (s.hash_to_block.lookup h).isNone))]) ∧
    (l.filter (fun h => (s.hash_to_block.lookup h).isNone)).Sublist l ∧
    (∀ h ∈ l.filter (fun h => (s.hash_to_block.lookup h).isNone),
      s.hash_to_block.lookup h = none) ∧
    (∀ h ∈ l, s.hash_to_block.lookup h = none →
      h ∈ l.filter (fun h => (s.hash_to_block.lookup h).isNone)) ∧
    ((∀ h ∈ l, (s.hash_to_block.lookup h).isSome) →
      (handleNewBlockHashes s l).2 = []) := by
  refine ⟨rfl, ?_, List.filter_sublist l, ?_, ?_, ?_⟩
  · unfold handleNewBlockHashes
    by_cases he : (l.filter (fun h => (s.hash_to_block.lookup h).isNone)).isEmpty <;>
      simp [he]
  · intro h hm
    have h2 := (List.mem_filter.mp hm).2
    exact Option.isNone_iff_eq_none.mp (by simpa using h2)
  · intro h hl hn
    exact List.mem_filter.mpr ⟨hl, by simp [hn]⟩
  · intro hall
    unfold handleNewBlockHashes
    have he : l.filter (fun h => (s.hash_to_block.lookup h).isNone) = [] := by
      rw [List.filter_eq_nil_iff]
      intro a ha
      have h2 := hall a ha
      rcases hopt : s.hash_to_block.lookup a with _ | v
      · rw [hopt] at h2
        simp at h2
      · simp [hopt]
    rw [he]
    simp

/-- Witness for C9: announcing the already-known genesis hash to a fresh
store yields no reply and leaves the store unchanged. -/
theorem new_block_hashes_reply_witness :
    (handleNewBlockHashes (Blockchain.new hashEx 0) [hashEx (genesisBlock 0)]).2 = [] ∧
    (handleNewBlockHashes (Blockchain.new hashEx 0) [hashEx (genesisBlock 0)]).1
      = Blockchain.new hashEx 0 := by
  have h := new_block_hashes_reply (Blockchain.new hashEx 0) [hashEx (genesisBlock 0)]
  refine ⟨h.2.2.2.2.2 ?_, h.1⟩
  intro x hx
  simp only [List.mem_singleton] at hx
  subst hx
  decide

end NetworkProofs
